import Mathlib

/-!
Verification of the kasparustwallet address codec and wallet layer.

The Rust sources `src/address.rs` and `src/wallet.rs` are embedded
shallowly: byte strings are `List Nat` (each element < 256), Rust strings
are `List Char`, `anyhow::Result` is `Except Err`.  The library crates the
code calls (`sha2`, `ripemd`, `bs58`, `hex`, `secp256k1`) are embedded as
executable Lean functions implementing the same algorithms.  The module
`transaction.rs` is declared in `main.rs` but absent from the repository;
its data model is modelled from the specification text where needed.
-/

/-- Rust strings are modelled as lists of characters. -/
abbrev Str := List Char

/-- Value of a little-endian digit list in base `b` (executable version of
`Nat.ofDigits`). -/
def ofDigitsF (b : Nat) : List Nat → Nat
  | [] => 0
  | d :: L => d + b * ofDigitsF b L

/-- Fuel-driven base-`b` digit expansion (little-endian), so that the kernel
can evaluate it; `digitsF b fuel n` agrees with `Nat.digits b n` once
`fuel ≥ n` and `2 ≤ b`. -/
def digitsF (b : Nat) : Nat → Nat → List Nat
  | 0, _ => []
  | _ + 1, 0 => []
  | f + 1, n + 1 => ((n + 1) % b) :: digitsF b f ((n + 1) / b)

/-- Little-endian digits of `n` in base `b`, executable. -/
def natDigits (b n : Nat) : List Nat := digitsF b n n

/-- Big-endian value of a byte string. -/
def beVal (l : List Nat) : Nat := ofDigitsF 256 l.reverse

/-- `n` as exactly `k` big-endian bytes (truncating above `256^k`). -/
def beBytesFixed (k n : Nat) : List Nat :=
  (List.range k).map (fun i => n / 256 ^ (k - 1 - i) % 256)

/-- `n` as exactly `k` little-endian bytes. -/
def leBytesFixed (k n : Nat) : List Nat :=
  (List.range k).map (fun i => n / 256 ^ i % 256)

/-- Concatenated image of `f` over a list (a self-contained `flatMap`). -/
def concatB {α β : Type} (f : α → List β) : List α → List β
  | [] => []
  | a :: l => f a ++ concatB f l

/-- Reduction modulo `2 ^ 32`, the word size of SHA-256 and RIPEMD-160. -/
def w32 (n : Nat) : Nat := n % 4294967296

/-- Rotate a 32-bit word left by `s`. -/
def rotl32 (s x : Nat) : Nat := w32 (x <<< s) + x >>> (32 - s)

/-- Rotate a 32-bit word right by `s`. -/
def rotr32 (s x : Nat) : Nat := x >>> s + w32 (x <<< (32 - s))

/-- Split a byte string into chunks of `sz` bytes (fuel-driven). -/
def chunksF (sz : Nat) : Nat → List Nat → List (List Nat)
  | 0, _ => []
  | _ + 1, [] => []
  | f + 1, a :: l => (a :: l).take sz :: chunksF sz f ((a :: l).drop sz)

/-- Split a byte string into chunks of `sz` bytes. -/
def chunks (sz : Nat) (l : List Nat) : List (List Nat) := chunksF sz l.length l

/-- Big-endian 4-byte groups to 32-bit words (SHA-256 message parsing). -/
def toWordsBE : List Nat → List Nat
  | b0 :: b1 :: b2 :: b3 :: rest =>
      (((b0 * 256 + b1) * 256 + b2) * 256 + b3) :: toWordsBE rest
  | _ => []

/-- Little-endian 4-byte groups to 32-bit words (RIPEMD-160 parsing). -/
def toWordsLE : List Nat → List Nat
  | b0 :: b1 :: b2 :: b3 :: rest =>
      (((b3 * 256 + b2) * 256 + b1) * 256 + b0) :: toWordsLE rest
  | _ => []

/-- SHA-256 round constants. -/
def shaK : List Nat :=
  [1116352408, 1899447441, 3049323471, 3921009573,
   961987163, 1508970993, 2453635748, 2870763221,
   3624381080, 310598401, 607225278, 1426881987,
   1925078388, 2162078206, 2614888103, 3248222580,
   3835390401, 4022224774, 264347078, 604807628,
   770255983, 1249150122, 1555081692, 1996064986,
   2554220882, 2821834349, 2952996808, 3210313671,
   3336571891, 3584528711, 113926993, 338241895,
   666307205, 773529912, 1294757372, 1396182291,
   1695183700, 1986661051, 2177026350, 2456956037,
   2730485921, 2820302411, 3259730800, 3345764771,
   3516065817, 3600352804, 4094571909, 275423344,
   430227734, 506948616, 659060556, 883997877,
   958139571, 1322822218, 1537002063, 1747873779,
   1955562222, 2024104815, 2227730452, 2361852424,
   2428436474, 2756734187, 3204031479, 3329325298]

/-- SHA-256 initial hash state. -/
def shaH0 : List Nat :=
  [1779033703, 3144134277, 1013904242, 2773480762,
   1359893119, 2600822924, 528734635, 1541459225]

/-- SHA-256 big sigma 0. -/
def bsig0 (x : Nat) : Nat :=
  Nat.xor (Nat.xor (rotr32 2 x) (rotr32 13 x)) (rotr32 22 x)

/-- SHA-256 big sigma 1. -/
def bsig1 (x : Nat) : Nat :=
  Nat.xor (Nat.xor (rotr32 6 x) (rotr32 11 x)) (rotr32 25 x)

/-- SHA-256 small sigma 0. -/
def ssig0 (x : Nat) : Nat :=
  Nat.xor (Nat.xor (rotr32 7 x) (rotr32 18 x)) (x >>> 3)

/-- SHA-256 small sigma 1. -/
def ssig1 (x : Nat) : Nat :=
  Nat.xor (Nat.xor (rotr32 17 x) (rotr32 19 x)) (x >>> 10)

/-- SHA-256 choice function. -/
def chF (e f g : Nat) : Nat :=
  Nat.xor (Nat.land e f) (Nat.land (Nat.xor e 0xffffffff) g)

/-- SHA-256 majority function. -/
def majF (a b c : Nat) : Nat :=
  Nat.xor (Nat.xor (Nat.land a b) (Nat.land a c)) (Nat.land b c)

/-- Extend the 16 message words of a block to the 64-entry SHA-256 schedule. -/
def shaSchedule (w : List Nat) : List Nat :=
  (List.range 48).foldl
    (fun acc _ =>
      acc ++ [w32 (ssig1 (acc.getD (acc.length - 2) 0) +
                   acc.getD (acc.length - 7) 0 +
                   ssig0 (acc.getD (acc.length - 15) 0) +
                   acc.getD (acc.length - 16) 0)])
    w

/-- One SHA-256 round on the 8-word working state. -/
def shaRound (wt kt : Nat) (s : List Nat) : List Nat :=
  let a := s.getD 0 0
  let b := s.getD 1 0
  let c := s.getD 2 0
  let e := s.getD 4 0
  let t1 := w32 (s.getD 7 0 + bsig1 e + chF e (s.getD 5 0) (s.getD 6 0) + kt + wt)
  let t2 := w32 (bsig0 a + majF a b c)
  [w32 (t1 + t2), a, b, c, w32 (s.getD 3 0 + t1), e, s.getD 5 0, s.getD 6 0]

/-- SHA-256 compression of one 64-byte block into the running state. -/
def sha256Block (st blk : List Nat) : List Nat :=
  let w := shaSchedule (toWordsBE blk)
  let fs := (List.zip w shaK).foldl (fun s p => shaRound p.1 p.2 s) st
  List.zipWith (fun x y => w32 (x + y)) st fs

/-- SHA-256 of a byte string, as the `sha2` crate computes it. -/
def sha256 (msg : List Nat) : List Nat :=
  let L := msg.length
  let padded :=
    msg ++ 0x80 :: (List.replicate ((119 - L % 64) % 64) 0 ++ beBytesFixed 8 (L * 8))
  concatB (fun w => beBytesFixed 4 w) ((chunks 64 padded).foldl sha256Block shaH0)

/-- RIPEMD-160 initial state. -/
def rmdInit : List Nat :=
  [0x67452301, 0xefcdab89, 0x98badcfe, 0x10325476, 0xc3d2e1f0]

/-- RIPEMD-160 left-line message word order. -/
def rmdRL : List Nat :=
  [0, 1, 2, 3, 4, 5, 6, 7, 8, 9, 10, 11, 12, 13, 14, 15,
   7, 4, 13, 1, 10, 6, 15, 3, 12, 0, 9, 5, 2, 14, 11, 8,
   3, 10, 14, 4, 9, 15, 8, 1, 2, 7, 0, 6, 13, 11, 5, 12,
   1, 9, 11, 10, 0, 8, 12, 4, 13, 3, 7, 15, 14, 5, 6, 2,
   4, 0, 5, 9, 7, 12, 2, 10, 14, 1, 3, 8, 11, 6, 15, 13]

/-- RIPEMD-160 right-line message word order. -/
def rmdRR : List Nat :=
  [5, 14, 7, 0, 9, 2, 11, 4, 13, 6, 15, 8, 1, 10, 3, 12,
   6, 11, 3, 7, 0, 13, 5, 10, 14, 15, 8, 12, 4, 9, 1, 2,
   15, 5, 1, 3, 7, 14, 6, 9, 11, 8, 12, 2, 10, 0, 4, 13,
   8, 6, 4, 1, 3, 11, 15, 0, 5, 12, 2, 13, 9, 7, 10, 14,
   12, 15, 10, 4, 1, 5, 8, 7, 6, 2, 13, 14, 0, 3, 9, 11]

/-- RIPEMD-160 left-line rotation amounts. -/
def rmdSL : List Nat :=
  [11, 14, 15, 12, 5, 8, 7, 9, 11, 13, 14, 15, 6, 7, 9, 8,
   7, 6, 8, 13, 11, 9, 7, 15, 7, 12, 15, 9, 11, 7, 13, 12,
   11, 13, 6, 7, 14, 9, 13, 15, 14, 8, 13, 6, 5, 12, 7, 5,
   11, 12, 14, 15, 14, 15, 9, 8, 9, 14, 5, 6, 8, 6, 5, 12,
   9, 15, 5, 11, 6, 8, 13, 12, 5, 12, 13, 14, 11, 8, 5, 6]

/-- RIPEMD-160 right-line rotation amounts. -/
def rmdSR : List Nat :=
  [8, 9, 9, 11, 13, 15, 15, 5, 7, 7, 8, 11, 14, 14, 12, 6,
   9, 13, 15, 7, 12, 8, 9, 11, 7, 7, 12, 7, 6, 15, 13, 11,
   9, 7, 15, 11, 8, 6, 6, 14, 12, 13, 5, 14, 13, 13, 7, 5,
   15, 5, 8, 11, 14, 14, 6, 14, 6, 9, 12, 9, 12, 5, 15, 8,
   8, 5, 12, 9, 12, 5, 14, 6, 8, 13, 6, 5, 15, 13, 11, 11]

/-- RIPEMD-160 left-line round constant for step `j`. -/
def rmdKL (j : Nat) : Nat :=
  [0, 0x5a827999, 0x6ed9eba1, 0x8f1bbcdc, 0xa953fd4e].getD (j / 16) 0

/-- RIPEMD-160 right-line round constant for step `j`. -/
def rmdKR (j : Nat) : Nat :=
  [0x50a28be6, 0x5c4dd124, 0x6d703ef3, 0x7a6d76e9, 0].getD (j / 16) 0

/-- RIPEMD-160 selection function for step `j` (left line; the right line
uses `rmdF (79 - j)`). -/
def rmdF (j x y z : Nat) : Nat :=
  if j < 16 then Nat.xor (Nat.xor x y) z
  else if j < 32 then Nat.lor (Nat.land x y) (Nat.land (Nat.xor x 0xffffffff) z)
  else if j < 48 then Nat.xor (Nat.lor x (Nat.xor y 0xffffffff)) z
  else if j < 64 then Nat.lor (Nat.land x z) (Nat.land y (Nat.xor z 0xffffffff))
  else Nat.xor x (Nat.lor y (Nat.xor z 0xffffffff))

/-- One RIPEMD-160 line (80 steps) over a block's 16 message words. -/
def rmdLine (xw rTab sTab : List Nat) (kAt : Nat → Nat) (fAt : Nat → Nat → Nat → Nat → Nat)
    (st : List Nat) : List Nat :=
  (List.range 80).foldl
    (fun s j =>
      let a := s.getD 0 0
      let b := s.getD 1 0
      let c := s.getD 2 0
      let d := s.getD 3 0
      let e := s.getD 4 0
      let x := xw.getD (rTab.getD j 0) 0
      let t := w32 (rotl32 (sTab.getD j 0) (w32 (a + fAt j b c d + x + kAt j)) + e)
      [e, t, b, rotl32 10 c, d])
    st

/-- RIPEMD-160 compression of one 64-byte block into the running state. -/
def rmdBlock (st blk : List Nat) : List Nat :=
  let x := toWordsLE blk
  let L := rmdLine x rmdRL rmdSL rmdKL rmdF st
  let R := rmdLine x rmdRR rmdSR rmdKR (fun j => rmdF (79 - j)) st
  [w32 (st.getD 1 0 + L.getD 2 0 + R.getD 3 0),
   w32 (st.getD 2 0 + L.getD 3 0 + R.getD 4 0),
   w32 (st.getD 3 0 + L.getD 4 0 + R.getD 0 0),
   w32 (st.getD 4 0 + L.getD 0 0 + R.getD 1 0),
   w32 (st.getD 0 0 + L.getD 1 0 + R.getD 2 0)]

/-- RIPEMD-160 of a byte string, as the `ripemd` crate computes it. -/
def ripemd160 (msg : List Nat) : List Nat :=
  let L := msg.length
  let padded :=
    msg ++ 0x80 :: (List.replicate ((119 - L % 64) % 64) 0 ++ leBytesFixed 8 (L * 8))
  concatB (fun w => leBytesFixed 4 w) ((chunks 64 padded).foldl rmdBlock rmdInit)

/-- The base58 alphabet used by the `bs58` crate (Bitcoin alphabet). -/
def b58Alphabet : List Char :=
  "123456789ABCDEFGHJKLMNPQRSTUVWXYZabcdefghijkmnopqrstuvwxyz".toList

/-- Character for the base58 digit `d`. -/
def b58Char (d : Nat) : Char := b58Alphabet.getD d '1'

/-- Position of a character in an alphabet, if present. -/
def alphaIdx : List Char → Char → Option Nat
  | [], _ => none
  | a :: as, c => if c = a then some 0 else (alphaIdx as c).map (· + 1)

/-- Base58 digit value of a character, if it is in the alphabet. -/
def b58Val (c : Char) : Option Nat := alphaIdx b58Alphabet c

/-- Digit values of a base58 string, failing on the first foreign character
(the `bs58` crate reports an error there). -/
def b58Vals : List Char → Option (List Nat)
  | [] => some []
  | c :: cs =>
      match b58Val c, b58Vals cs with
      | some v, some vs => some (v :: vs)
      | _, _ => none

/-- Base58 encoding of a byte string, as `bs58::encode(..).into_string()`
computes it: each leading zero byte becomes a leading one-character, and
the remainder is the big-endian base58 expansion of the value. -/
def b58encode (bytes : List Nat) : List Char :=
  let zeros := (bytes.takeWhile (· = 0)).length
  List.replicate zeros '1' ++ (natDigits 58 (beVal bytes)).reverse.map b58Char

/-- Base58 decoding of a string, as `bs58::decode(..).into_vec()` computes
it: `none` on any character outside the alphabet, otherwise each leading
one-character becomes a zero byte and the value of the digits becomes
big-endian bytes. -/
def b58decode (s : List Char) : Option (List Nat) :=
  match b58Vals s with
  | none => none
  | some vals =>
      some (List.replicate (s.takeWhile (· = '1')).length 0 ++
            (natDigits 256 (ofDigitsF 58 vals.reverse)).reverse)

/-- The secp256k1 field prime. -/
def secpP : Nat := 2 ^ 256 - 2 ^ 32 - 977

/-- The secp256k1 group order (valid secret scalars are `1 .. secpN - 1`). -/
def secpN : Nat :=
  0xfffffffffffffffffffffffffffffffebaaedce6af48a03bbfd25e8cd0364141

/-- x-coordinate of the secp256k1 generator. -/
def secpGx : Nat :=
  0x79be667ef9dcbbac55a06295ce870b07029bfcdb2dce28d959f2815b16f81798

/-- y-coordinate of the secp256k1 generator. -/
def secpGy : Nat :=
  0x483ada7726a3c4655da4fbfc0e1108a8fd17b448a68554199c47d08ffb10d4b8

/-- Fuel-driven modular exponentiation by squaring. -/
def powModF (m : Nat) : Nat → Nat → Nat → Nat
  | 0, _, _ => 1 % m
  | f + 1, b, e =>
      if e = 0 then 1 % m
      else
        let r := powModF m f (b * b % m) (e / 2)
        if e % 2 = 1 then r * b % m else r

/-- Modular exponentiation `b ^ e % m`. -/
def powMod (b e m : Nat) : Nat := powModF m e b e

/-- Inverse in the secp256k1 field, by Fermat. -/
def pinv (a : Nat) : Nat := powMod a (secpP - 2) secpP

/-- Affine secp256k1 point addition; `none` is the point at infinity.
Coordinates are kept reduced modulo `secpP`. -/
def pAdd : Option (Nat × Nat) → Option (Nat × Nat) → Option (Nat × Nat)
  | none, q => q
  | some p, none => some p
  | some (x1, y1), some (x2, y2) =>
      if x1 = x2 then
        if (y1 + y2) % secpP = 0 then none
        else
          let lam := 3 * x1 * x1 % secpP * pinv (2 * y1 % secpP) % secpP
          let x3 := (lam * lam + (secpP - x1 % secpP) + (secpP - x2 % secpP)) % secpP
          some (x3, (lam * ((x1 + (secpP - x3)) % secpP) + (secpP - y1 % secpP)) % secpP)
      else
        let lam := (y2 + (secpP - y1 % secpP)) % secpP *
                     pinv ((x2 + (secpP - x1 % secpP)) % secpP) % secpP
        let x3 := (lam * lam + (secpP - x1 % secpP) + (secpP - x2 % secpP)) % secpP
        some (x3, (lam * ((x1 + (secpP - x3)) % secpP) + (secpP - y1 % secpP)) % secpP)

/-- Fuel-driven double-and-add scalar multiplication. -/
def sMulF : Nat → Nat → Option (Nat × Nat) → Option (Nat × Nat)
  | 0, _, _ => none
  | f + 1, k, p =>
      if k = 0 then none
      else
        let r := sMulF f (k / 2) (pAdd p p)
        if k % 2 = 1 then pAdd p r else r

/-- Scalar multiplication `k * p` on secp256k1. -/
def scalarMul (k : Nat) (p : Option (Nat × Nat)) : Option (Nat × Nat) := sMulF k k p

/-- A secp256k1 public key: an affine curve point, as the `secp256k1`
crate's `PublicKey`. -/
structure PublicKey where
  x : Nat
  y : Nat
deriving DecidableEq

/-- A secp256k1 secret key: 32 bytes whose big-endian value is a nonzero
scalar below the group order — the exact representation the `secp256k1`
crate's `SecretKey` enforces. -/
structure SecretKey where
  bytes : List Nat
  len32 : bytes.length = 32
  lt256 : ∀ b ∈ bytes, b < 256
  val_pos : 0 < beVal bytes
  val_lt : beVal bytes < secpN

/-- The public point of the scalar `k` (the secp256k1 generator times `k`).
A valid secret scalar never maps to infinity; the infinity branch is a
dead default. -/
def fromSecretVal (k : Nat) : PublicKey :=
  match scalarMul k (some (secpGx, secpGy)) with
  | some p => PublicKey.mk p.1 p.2
  | none => PublicKey.mk 0 0

/-- `secp256k1::PublicKey::from_secret_key`: elliptic-curve multiplication
of the secret scalar with the generator. -/
def PublicKey.from_secret_key (sk : SecretKey) : PublicKey :=
  fromSecretVal (beVal sk.bytes)

/-- `PublicKey::serialize`: the 33-byte compressed form, a parity byte
(2 for even y, 3 for odd) followed by the x-coordinate as 32 big-endian
bytes. -/
def PublicKey.serialize (pk : PublicKey) : List Nat :=
  (if pk.y % 2 = 0 then 2 else 3) :: beBytesFixed 32 pk.x

/-- `SecretKey::from_slice`: accepts exactly 32 bytes forming a nonzero
scalar below the group order. -/
def SecretKey.from_slice (l : List Nat) : Option SecretKey :=
  if h : l.length = 32 ∧ (∀ b ∈ l, b < 256) ∧ 0 < beVal l ∧ beVal l < secpN
  then some (SecretKey.mk l h.1 h.2.1 h.2.2.1 h.2.2.2)
  else none

/-- `SecretKey::secret_bytes`: the 32 raw key bytes. -/
def SecretKey.secret_bytes (sk : SecretKey) : List Nat := sk.bytes

/-- The lowercase hex alphabet used by `hex::encode`. -/
def hexChars : List Char := "0123456789abcdef".toList

/-- Character for the hex digit `d` (lowercase). -/
def hexDigit (d : Nat) : Char := hexChars.getD d '0'

/-- `hex::encode`: two lowercase hex characters per byte. -/
def hexEncode (bytes : List Nat) : List Char :=
  concatB (fun b => [hexDigit (b / 16), hexDigit (b % 16)]) bytes

/-- Hex digit value of a character; `hex::decode` accepts both cases. -/
def hexVal (c : Char) : Option Nat :=
  match alphaIdx hexChars c with
  | some v => some v
  | none => alphaIdx "0123456789ABCDEF".toList c

/-- `hex::decode`: fails on odd length or any non-hex character. -/
def hexDecode : List Char → Option (List Nat)
  | [] => some []
  | [_] => none
  | c1 :: c2 :: rest =>
      match hexVal c1, hexVal c2, hexDecode rest with
      | some hi, some lo, some bs => some ((16 * hi + lo) :: bs)
      | _, _, _ => none

/-- Error kind of a fallible core operation (the code uses stringly
`anyhow` errors; the distinct exits are modelled as constructors). -/
inductive Err where
  | invalidAddress : Str → Err
  | indexOutOfRange : Err
  | invalidSecretKey : Err
deriving DecidableEq

/-- `compute_checksum` of `src/address.rs`: first 4 bytes of the double
SHA-256 of the payload. -/
def compute_checksum (payload : List Nat) : List Nat :=
  (sha256 (sha256 payload)).take 4

/-- Rust `str::split(':')`: the colon-separated pieces of a string
(`n` colons give `n + 1` pieces). -/
def splitCols : Str → List Str
  | [] => [[]]
  | c :: rest =>
      match splitCols rest with
      | [] => [[]]
      | p :: ps => if c = ':' then [] :: p :: ps else (c :: p) :: ps

/-- `generate_address` of `src/address.rs`: hash the serialized public key
with SHA-256 then RIPEMD-160, prepend version byte 0, append the 4-byte
checksum, base58-encode, and join with the network prefix on a colon. -/
def generate_address (public_key : PublicKey) ( network_prefix : Str) : Except Err Str :=
  let pubkey_bytes := PublicKey.serialize public_key
  let sha256_hash := sha256 pubkey_bytes
  let pubkey_hash := ripemd160 sha256_hash
  let payload := 0x00 :: pubkey_hash
  let checksum := compute_checksum payload
  let full := payload ++ checksum
  Except.ok ( network_prefix ++ ':' :: b58encode full)

/-- `validate_address` of `src/address.rs`: requires exactly one colon,
base58-decodes the suffix, requires at least 21 decoded bytes, and
compares the last 4 bytes against the recomputed checksum of the rest. -/
def validate_address (address : Str) : Except Err Bool :=
  if ':' ∉ address then Except.ok false
  else
    let parts := splitCols address
    if parts.length ≠ 2 then Except.ok false
    else
      let encoded_part := parts.getD 1 []
      match b58decode encoded_part with
      | none => Except.ok false
      | some decoded_bytes =>
          if decoded_bytes.length < 21 then Except.ok false
          else
            let payload := decoded_bytes.take (decoded_bytes.length - 4)
            let checksum := decoded_bytes.drop (decoded_bytes.length - 4)
            Except.ok (decide (checksum = compute_checksum payload))

/-- Modelled from the spec: `transaction.rs` is declared in `main.rs` but
absent from the repository.  A transaction input references a prior output
by txid and vout and carries an optional signature, present only after
signing. -/
structure TxInput where
  txid : Str
  vout : Nat
  signature : Option (List Nat)
deriving DecidableEq

/-- Modelled from the spec: a transaction output is an address string and
an amount in the smallest unit. -/
structure TxOutput where
  address : Str
  amount : Nat
deriving DecidableEq

/-- Modelled from the spec: a transaction is a version field and ordered
input and output sequences. -/
structure Transaction where
  version : Nat
  inputs : List TxInput
  outputs : List TxOutput
deriving DecidableEq

/-- Modelled from the spec: `Transaction::new` starts empty (the spec
leaves the concrete version value open; it is modelled as 1). -/
def Transaction.new : Transaction := Transaction.mk 1 [] []

/-- Modelled from the spec: `add_input` appends an unsigned input and
validates nothing. -/
def Transaction.add_input (t : Transaction) (txid : Str) (vout : Nat) : Transaction :=
  Transaction.mk t.version (t.inputs ++ [TxInput.mk txid vout none]) t.outputs

/-- Modelled from the spec: `add_output` appends an output without
re-validating the address (validation happens in the wallet layer). -/
def Transaction.add_output (t : Transaction) (address : Str) (amount : Nat) : Transaction :=
  Transaction.mk t.version t.inputs (t.outputs ++ [TxOutput.mk address amount])

/-- Modelled from the spec: the deterministic signing payload, a stable
serialization of the transaction's current inputs and outputs. -/
def signingPayload (t : Transaction) : List Nat :=
  beBytesFixed 2 t.version ++ beBytesFixed 4 t.inputs.length ++
  concatB (fun i => beBytesFixed 4 i.txid.length ++ i.txid.map Char.toNat ++
    beBytesFixed 4 i.vout) t.inputs ++
  beBytesFixed 4 t.outputs.length ++
  concatB (fun o => beBytesFixed 4 o.address.length ++ o.address.map Char.toNat ++
    beBytesFixed 8 o.amount) t.outputs

/-- Modelled from the spec: the spec leaves the concrete signature scheme
open (ECDSA or Schnorr); the signature is modelled as a deterministic
function binding the signing payload and the secret key. -/
def mkSignature (payload : List Nat) (sk : SecretKey) : List Nat :=
  sha256 (payload ++ sk.bytes)

/-- Modelled from the spec: `sign_input` stores a signature on input
`index`, or fails with `IndexOutOfRange` when `index` is not below the
input count, leaving the transaction as it was (the pair returns the
transaction after the call together with the call's result). -/
def Transaction.sign_input (t : Transaction) (index : Nat) (sk : SecretKey)
    (pk : PublicKey) : Transaction × Except Err Unit :=
  if index < t.inputs.length then
    let old := t.inputs.getD index (TxInput.mk [] 0 none)
    (Transaction.mk t.version
      (t.inputs.set index
        (TxInput.mk old.txid old.vout (some (mkSignature (signingPayload t) sk))))
      t.outputs,
     Except.ok ())
  else (t, Except.error Err.indexOutOfRange)

/-- Modelled from the spec: the fixed binary layout of `serialize` —
2-byte version, 4-byte counts, per input a length-prefixed txid, 4-byte
vout and a presence flag plus length-prefixed signature bytes, per output
a length-prefixed address and 8-byte amount. -/
def Transaction.serializeBytes (t : Transaction) : List Nat :=
  beBytesFixed 2 t.version ++ beBytesFixed 4 t.inputs.length ++
  concatB (fun i => beBytesFixed 4 i.txid.length ++ i.txid.map Char.toNat ++
    beBytesFixed 4 i.vout ++
    (match i.signature with
     | none => [0]
     | some sg => 1 :: (beBytesFixed 4 sg.length ++ sg))) t.inputs ++
  beBytesFixed 4 t.outputs.length ++
  concatB (fun o => beBytesFixed 4 o.address.length ++ o.address.map Char.toNat ++
    beBytesFixed 8 o.amount) t.outputs

/-- Modelled from the spec: `serialize` returns the fixed binary layout. -/
def Transaction.serialize (t : Transaction) : Except Err (List Nat) :=
  Except.ok (Transaction.serializeBytes t)

/-- Modelled from the spec: `estimate_fee` is the linear model
`ceil(estimated_size_bytes * fee_rate / 1000)` over the byte-size of the
transaction as currently serialized (placeholders unsigned). -/
def Transaction.estimate_fee (t : Transaction) (fee_rate : Nat) : Nat :=
  ((Transaction.serializeBytes t).length * fee_rate + 999) / 1000

/-- `KaspaWallet` of `src/wallet.rs`: a secret key, the public key derived
from it, and a network prefix. -/
structure KaspaWallet where
  secret_key : SecretKey
  public_key : PublicKey
  network_prefix : Str

/-- `KaspaWallet::new`: rederives the public key from the secret key and
defaults the network prefix to mainnet. -/
def KaspaWallet.new (secret_key : SecretKey) : Except Err KaspaWallet :=
  Except.ok (KaspaWallet.mk secret_key (PublicKey.from_secret_key secret_key)
    "kaspa".toList)

/-- `KaspaWallet::with_network`: rederives the public key from the secret
key and stores the given network prefix. -/
def KaspaWallet.with_network (secret_key : SecretKey) (network : Str) :
    Except Err KaspaWallet :=
  Except.ok (KaspaWallet.mk secret_key (PublicKey.from_secret_key secret_key) network)

/-- `KaspaWallet::mnemonic_to_seed`: a single SHA-256 of the mnemonic's
UTF-8 bytes (the mnemonic is passed as its byte string). -/
def mnemonic_to_seed (mnemonicBytes : List Nat) : Except Err (List Nat) :=
  Except.ok (sha256 mnemonicBytes)

/-- `KaspaWallet::from_mnemonic`: hashes the mnemonic, takes the first 32
seed bytes as the secret key, and defers to `new`. -/
def KaspaWallet.from_mnemonic (mnemonicBytes : List Nat) (derivation_path : Str) :
    Except Err KaspaWallet :=
  match mnemonic_to_seed mnemonicBytes with
  | Except.error e => Except.error e
  | Except.ok seed =>
      match SecretKey.from_slice (seed.take 32) with
      | none => Except.error Err.invalidSecretKey
      | some sk => KaspaWallet.new sk

/-- `KaspaWallet::get_address`. -/
def KaspaWallet.get_address (w : KaspaWallet) : Except Err Str :=
  generate_address w.public_key ( KaspaWallet.network_prefix w)

/-- `KaspaWallet::get_public_key`: hex of the 33-byte compressed key. -/
def KaspaWallet.get_public_key (w : KaspaWallet) : Str :=
  hexEncode (PublicKey.serialize w.public_key)

/-- `KaspaWallet::get_private_key`: hex of the 32 secret bytes. -/
def KaspaWallet.get_private_key (w : KaspaWallet) : Str :=
  hexEncode (SecretKey.secret_bytes w.secret_key)

/-- The input loop of `create_transaction`: adds every input unchecked. -/
def addInputsLoop (t : Transaction) : List (Str × Nat) → Transaction
  | [] => t
  | (txid, vout) :: rest => addInputsLoop (t.add_input txid vout) rest

/-- The output loop of `create_transaction`: validates each address and
returns the invalid-address error at the first failure, before the output
is appended. -/
def addOutputsLoop (t : Transaction) : List (Str × Nat) → Except Err Transaction
  | [] => Except.ok t
  | (address, amount) :: rest =>
      match validate_address address with
      | Except.error e => Except.error e
      | Except.ok false => Except.error (Err.invalidAddress address)
      | Except.ok true => addOutputsLoop (t.add_output address amount) rest

/-- The signing loop of `create_transaction`: signs the listed indices in
order, propagating the first failure. -/
def signLoop (sk : SecretKey) (pk : PublicKey) (t : Transaction) :
    List Nat → Except Err Transaction
  | [] => Except.ok t
  | i :: rest =>
      match Transaction.sign_input t i sk pk with
      | (t2, Except.ok _) => signLoop sk pk t2 rest
      | (_, Except.error e) => Except.error e

/-- `KaspaWallet::create_transaction`: add all inputs, validate and add
all outputs, then sign every input index. -/
def KaspaWallet.create_transaction (w : KaspaWallet) (inputs : List (Str × Nat))
    (outputs : List (Str × Nat)) (fee_rate : Nat) : Except Err Transaction :=
  match addOutputsLoop (addInputsLoop Transaction.new inputs) outputs with
  | Except.error e => Except.error e
  | Except.ok tx2 => signLoop w.secret_key w.public_key tx2 (List.range tx2.inputs.length)

/-- The placeholder transaction `estimate_transaction_fee` builds:
`input_count` dummy inputs and `output_count` dummy outputs, unsigned. -/
def dummyTx (input_count output_count : Nat) : Transaction :=
  let t := (List.range input_count).foldl
    (fun t _ => t.add_input "dummy".toList 0) Transaction.new
  (List.range output_count).foldl (fun t _ => t.add_output "dummy".toList 0) t

/-- `KaspaWallet::estimate_transaction_fee`: build the placeholder
transaction and apply the linear fee model. -/
def KaspaWallet.estimate_transaction_fee (w : KaspaWallet)
    (input_count output_count fee_rate : Nat) : Nat :=
  Transaction.estimate_fee (dummyTx input_count output_count) fee_rate

/-- `KaspaWallet::validate_private_key`: hex-decode, require 32 bytes,
and report whether `SecretKey::from_slice` accepts them. -/
def KaspaWallet.validate_private_key (private_key_hex : Str) : Except Err Bool :=
  match hexDecode private_key_hex with
  | none => Except.ok false
  | some key_bytes =>
      if key_bytes.length ≠ 32 then Except.ok false
      else Except.ok (SecretKey.from_slice key_bytes).isSome

/-- Restatement of the spec's acceptance condition for
`validate_private_key`, used to compare the code against the claim: the
input is valid hex for exactly 32 bytes whose value is a nonzero scalar
below the secp256k1 group order. -/
def specValidPrivateKey (s : Str) : Bool :=
  match hexDecode s with
  | none => false
  | some b => decide (b.length = 32 ∧ 0 < beVal b ∧ beVal b < secpN)

/-- Concrete secret key with scalar value 1, for witnesses. -/
def skOne : SecretKey :=
  SecretKey.mk (List.replicate 31 0 ++ [1]) (by decide) (by decide) (by decide)
    (by decide)

/-- Concrete public key used where only the 33-byte serialization matters. -/
def pkOne : PublicKey := PublicKey.mk 1 2

/-- Wallet produced by `KaspaWallet::new` on `skOne`, for witnesses. -/
def wOne : KaspaWallet :=
  KaspaWallet.mk skOne (PublicKey.from_secret_key skOne) "kaspa".toList

/-- Wallet produced by `KaspaWallet::with_network` on `skOne`, for
witnesses. -/
def wNet : KaspaWallet :=
  KaspaWallet.mk skOne (PublicKey.from_secret_key skOne) "testnet".toList

/-- A concrete mnemonic byte string, for witnesses. -/
def mnemonicW : List Nat := "test mnemonic".toList.map Char.toNat

/-- The wallet `KaspaWallet::from_mnemonic` produces on `mnemonicW`, for
witnesses (the fallback branch is unreachable). -/
def wMn : KaspaWallet :=
  match KaspaWallet.from_mnemonic mnemonicW "m".toList with
  | Except.ok w => w
  | Except.error _ => wOne

/-- A one-input transaction, for witnesses. -/
def txOne : Transaction := Transaction.add_input Transaction.new "ab".toList 0

/-- A 21-byte payload with version byte 5, for witnesses. -/
def c7Payload : List Nat := 5 :: List.replicate 20 7

/-- The payload above with its checksum appended, for witnesses. -/
def c7Full : List Nat := c7Payload ++ compute_checksum c7Payload

/-- The fixed-width big-endian byte view has the requested width. -/
theorem beBytesFixed_length (k n : Nat) : (beBytesFixed k n).length = k := by
  simp [beBytesFixed]

/-- Fixed-width big-endian bytes are bytes. -/
theorem beBytesFixed_lt (k n : Nat) : ∀ b ∈ beBytesFixed k n, b < 256 := by
  intro b hb
  simp only [beBytesFixed, List.mem_map] at hb
  obtain ⟨i, -, rfl⟩ := hb
  exact Nat.mod_lt _ (by norm_num)

/-- The fixed-width little-endian byte view has the requested width. -/
theorem leBytesFixed_length (k n : Nat) : (leBytesFixed k n).length = k := by
  simp [leBytesFixed]

/-- Fixed-width little-endian bytes are bytes. -/
theorem leBytesFixed_lt (k n : Nat) : ∀ b ∈ leBytesFixed k n, b < 256 := by
  intro b hb
  simp only [leBytesFixed, List.mem_map] at hb
  obtain ⟨i, -, rfl⟩ := hb
  exact Nat.mod_lt _ (by norm_num)

/-- Membership in a `concatB` image comes from some list element. -/
theorem concatB_mem {α β : Type} (f : α → List β) (l : List α) (b : β)
    (hb : b ∈ concatB f l) : ∃ a ∈ l, b ∈ f a := by
  induction l with
  | nil => cases hb
  | cons a t ih =>
      rcases List.mem_append.mp hb with h | h
      · exact ⟨a, List.mem_cons_self a t, h⟩
      · obtain ⟨x, hx, hbx⟩ := ih h
        exact ⟨x, List.mem_cons_of_mem a hx, hbx⟩

/-- Length of a `concatB` image with constant block size. -/
theorem concatB_length {α : Type} (k : Nat) (f : α → List Nat) (l : List α)
    (hf : ∀ a ∈ l, (f a).length = k) : (concatB f l).length = k * l.length := by
  induction l with
  | nil => simp [concatB]
  | cons a t ih =>
      simp only [concatB, List.length_append, List.length_cons]
      rw [hf a (List.mem_cons_self a t), ih (fun x hx => hf x (List.mem_cons_of_mem a hx))]
      ring

/-- One SHA-256 round keeps the 8-word state shape. -/
theorem shaRound_length (wt kt : Nat) (s : List Nat) : (shaRound wt kt s).length = 8 := rfl

/-- The SHA-256 round fold keeps the 8-word state shape. -/
theorem foldl_shaRound_length (l : List (Nat × Nat)) (s : List Nat) (h : s.length = 8) :
    (l.foldl (fun s p => shaRound p.1 p.2 s) s).length = 8 := by
  induction l generalizing s with
  | nil => simpa using h
  | cons p t ih => exact ih _ (shaRound_length p.1 p.2 s)

/-- SHA-256 block compression keeps the 8-word state shape. -/
theorem sha256Block_length (st blk : List Nat) (h : st.length = 8) :
    (sha256Block st blk).length = 8 := by
  simp only [sha256Block, List.length_zipWith, h,
    foldl_shaRound_length _ st h, Nat.min_self]

/-- The SHA-256 block fold keeps the 8-word state shape. -/
theorem foldl_sha256Block_length (bs : List (List Nat)) (st : List Nat) (h : st.length = 8) :
    (bs.foldl sha256Block st).length = 8 := by
  induction bs generalizing st with
  | nil => simpa using h
  | cons b t ih => exact ih _ (sha256Block_length st b h)

/-- A SHA-256 digest is 32 bytes. -/
theorem sha256_length (m : List Nat) : (sha256 m).length = 32 := by
  unfold sha256
  rw [concatB_length 4 _ _ (fun a _ => beBytesFixed_length 4 a),
    foldl_sha256Block_length _ _ (by rfl)]

/-- A SHA-256 digest consists of bytes. -/
theorem sha256_lt (m : List Nat) : ∀ b ∈ sha256 m, b < 256 := by
  intro b hb
  obtain ⟨a, -, hba⟩ := concatB_mem _ _ _ hb
  exact beBytesFixed_lt 4 a b hba

/-- One RIPEMD-160 line step keeps the 5-word state shape, hence so does
the whole line fold. -/
theorem rmdLine_length (xw rTab sTab : List Nat) (kAt : Nat → Nat)
    (fAt : Nat → Nat → Nat → Nat → Nat) (st : List Nat) (h : st.length = 5) :
    (rmdLine xw rTab sTab kAt fAt st).length = 5 := by
  unfold rmdLine
  generalize List.range 80 = idx
  induction idx generalizing st with
  | nil => simpa using h
  | cons j t ih => exact ih _ rfl

/-- RIPEMD-160 block compression keeps the 5-word state shape. -/
theorem rmdBlock_length (st blk : List Nat) : (rmdBlock st blk).length = 5 := rfl

/-- The RIPEMD-160 block fold keeps the 5-word state shape. -/
theorem foldl_rmdBlock_length (bs : List (List Nat)) (st : List Nat) (h : st.length = 5) :
    (bs.foldl rmdBlock st).length = 5 := by
  induction bs generalizing st with
  | nil => simpa using h
  | cons b t ih => exact ih _ (rmdBlock_length st b)

/-- A RIPEMD-160 digest is 20 bytes. -/
theorem ripemd160_length (m : List Nat) : (ripemd160 m).length = 20 := by
  unfold ripemd160
  rw [concatB_length 4 _ _ (fun a _ => leBytesFixed_length 4 a),
    foldl_rmdBlock_length _ _ (by rfl)]

/-- A RIPEMD-160 digest consists of bytes. -/
theorem ripemd160_lt (m : List Nat) : ∀ b ∈ ripemd160 m, b < 256 := by
  intro b hb
  obtain ⟨a, -, hba⟩ := concatB_mem _ _ _ hb
  exact leBytesFixed_lt 4 a b hba

/-- The fuel-driven digit expansion agrees with `Nat.digits` once the fuel
covers the argument. -/
theorem digitsF_eq_digits (b : Nat) (hb : 2 ≤ b) :
    ∀ fuel n, n ≤ fuel → digitsF b fuel n = Nat.digits b n := by
  intro fuel
  induction fuel with
  | zero =>
      intro n hn
      have : n = 0 := Nat.le_zero.mp hn
      subst this
      simp [digitsF]
  | succ f ih =>
      intro n hn
      match n with
      | 0 => simp [digitsF]
      | m + 1 =>
          have hdiv : (m + 1) / b ≤ f := by
            have h1 : (m + 1) / b < m + 1 := Nat.div_lt_self (Nat.succ_pos m) (by omega)
            omega
          rw [digitsF, ih _ hdiv, Nat.digits_def' (by omega : 1 < b) (Nat.succ_pos m)]

/-- `natDigits` computes `Nat.digits`. -/
theorem natDigits_eq (b n : Nat) (hb : 2 ≤ b) : natDigits b n = Nat.digits b n :=
  digitsF_eq_digits b hb n n (Nat.le_refl n)

/-- `ofDigitsF` computes `Nat.ofDigits`. -/
theorem ofDigitsF_eq (b : Nat) (l : List Nat) : ofDigitsF b l = Nat.ofDigits b l := by
  induction l with
  | nil => simp [ofDigitsF, Nat.ofDigits_nil]
  | cons d t ih => simp [ofDigitsF, Nat.ofDigits_cons, ih]

/-- Trailing zero digits do not change a little-endian value. -/
theorem ofDigitsF_append_zeros (b : Nat) (l : List Nat) (z : Nat) :
    ofDigitsF b (l ++ List.replicate z 0) = ofDigitsF b l := by
  induction l with
  | nil =>
      simp only [List.nil_append, ofDigitsF]
      induction z with
      | zero => rfl
      | succ z ih => simp [List.replicate_succ, ofDigitsF, ih]
  | cons d t ih => simp [ofDigitsF, ih]

/-- A digit list with a nonzero member has positive value. -/
theorem ofDigitsF_pos (b : Nat) (hb : 0 < b) (l : List Nat) (x : Nat)
    (hx : x ∈ l) (hxn : x ≠ 0) : 0 < ofDigitsF b l := by
  induction l with
  | nil => cases hx
  | cons d t ih =>
      rcases List.mem_cons.mp hx with rfl | hxt
      · have : 0 < x := Nat.pos_of_ne_zero hxn
        simp only [ofDigitsF]
        omega
      · have ht := ih hxt
        simp only [ofDigitsF]
        have : 0 < b * ofDigitsF b t := Nat.mul_pos hb ht
        omega

/-- Every base58 digit decodes back to itself. -/
theorem b58Val_b58Char : ∀ d < 58, b58Val (b58Char d) = some d := by decide

/-- Only the digit 0 is written as the one-character. -/
theorem b58Char_ne_one : ∀ d < 58, d ≠ 0 → b58Char d ≠ '1' := by decide

/-- Base58 digits are alphabet characters. -/
theorem b58Char_mem : ∀ d < 58, b58Char d ∈ b58Alphabet := by decide

/-- The colon is not a base58 character. -/
theorem colon_not_mem_b58 : ':' ∉ b58Alphabet := by decide

/-- `alphaIdx` finds exactly the members of the alphabet. -/
theorem alphaIdx_ne_none {l : List Char} {c : Char} (hc : c ∈ l) :
    alphaIdx l c ≠ none := by
  induction l with
  | nil => cases hc
  | cons a t ih =>
      by_cases h : c = a
      · subst h
        simp [alphaIdx]
      · rcases List.mem_cons.mp hc with h1 | h1
        · exact absurd h1 h
        · simp only [alphaIdx, if_neg h]
          intro hmap
          exact ih h1 (Option.map_eq_none.mp hmap)

/-- `alphaIdx` fails exactly off the alphabet. -/
theorem alphaIdx_none_of_not_mem {l : List Char} {c : Char} (hc : c ∉ l) :
    alphaIdx l c = none := by
  induction l with
  | nil => rfl
  | cons a t ih =>
      have h1 : c ≠ a := fun h => hc (h ▸ List.mem_cons_self a t)
      have h2 : c ∉ t := fun h => hc (List.mem_cons_of_mem a h)
      simp [alphaIdx, h1, ih h2]

/-- An `alphaIdx` hit is an index into the alphabet. -/
theorem alphaIdx_lt {l : List Char} {c : Char} {v : Nat}
    (h : alphaIdx l c = some v) : v < l.length := by
  induction l generalizing v with
  | nil => cases h
  | cons a t ih =>
      by_cases hca : c = a
      · simp only [alphaIdx, if_pos hca, Option.some.injEq] at h
        simp only [List.length_cons]
        omega
      · simp only [alphaIdx, if_neg hca] at h
        match hv : alphaIdx t c with
        | none => rw [hv] at h; cases h
        | some u =>
            rw [hv] at h
            simp at h
            have := ih hv
            simp only [List.length_cons]
            omega

/-- Digit reading fails on a string containing a foreign character. -/
theorem b58Vals_none {s : List Char} {c : Char} (hc : c ∈ s)
    (h : c ∉ b58Alphabet) : b58Vals s = none := by
  induction s with
  | nil => cases hc
  | cons a t ih =>
      rcases List.mem_cons.mp hc with rfl | hct
      · simp [b58Vals, b58Val, alphaIdx_none_of_not_mem h]
      · unfold b58Vals
        rw [ih hct]
        cases b58Val a <;> rfl

/-- Unfolding equation of digit reading on a cons cell. -/
theorem b58Vals_cons (c : Char) (cs : List Char) :
    b58Vals (c :: cs) =
      match b58Val c, b58Vals cs with
      | some v, some vs => some (v :: vs)
      | _, _ => none := rfl

/-- Digit reading distributes over append. -/
theorem b58Vals_append {a b : List Char} {x y : List Nat}
    (hx : b58Vals a = some x) (hy : b58Vals b = some y) :
    b58Vals (a ++ b) = some (x ++ y) := by
  induction a generalizing x with
  | nil =>
      simp only [b58Vals, Option.some.injEq] at hx
      simpa [← hx] using hy
  | cons c t ih =>
      rw [b58Vals_cons] at hx
      match hv : b58Val c, hts : b58Vals t with
      | some v, some ts =>
          rw [hv, hts] at hx
          simp only [Option.some.injEq] at hx
          rw [List.cons_append, b58Vals_cons, hv, ih hts]
          simp [← hx]
      | some v, none => rw [hv, hts] at hx; cases hx
      | none, _ => rw [hv] at hx; cases hx

/-- Digit reading of a run of one-characters gives a run of zeros. -/
theorem b58Vals_replicate_one (z : Nat) :
    b58Vals (List.replicate z '1') = some (List.replicate z 0) := by
  induction z with
  | zero => rfl
  | succ n ih => simp [List.replicate_succ, b58Vals, ih]; rfl

/-- Digit reading inverts digit writing. -/
theorem b58Vals_map_b58Char (ds : List Nat) (h : ∀ d ∈ ds, d < 58) :
    b58Vals (ds.map b58Char) = some ds := by
  induction ds with
  | nil => rfl
  | cons d t ih =>
      simp only [List.map_cons, b58Vals]
      rw [b58Val_b58Char d (h d (List.mem_cons_self d t)),
        ih (fun x hx => h x (List.mem_cons_of_mem d hx))]

/-- `takeWhile` passes a satisfying replicate prefix through. -/
theorem takeWhile_replicate_append {α : Type} (p : α → Bool) (a : α) (z : Nat)
    (l : List α) (hp : p a = true) :
    (List.replicate z a ++ l).takeWhile p = List.replicate z a ++ l.takeWhile p := by
  induction z with
  | zero => rfl
  | succ n ih => simp [List.replicate_succ, List.takeWhile_cons, hp, ih]

/-- `takeWhile` stops at a failing head. -/
theorem takeWhile_eq_nil_head {α : Type} (p : α → Bool) (l : List α)
    (h : ∀ x, l.head? = some x → p x = false) : l.takeWhile p = [] := by
  cases l with
  | nil => rfl
  | cons a t => simp [List.takeWhile_cons, h a rfl]

/-- The head of `dropWhile` fails the predicate. -/
theorem head_dropWhile_false {α : Type} (p : α → Bool) (l : List α) :
    ∀ x, (l.dropWhile p).head? = some x → p x = false := by
  induction l with
  | nil => intro x h; cases h
  | cons a t ih =>
      intro x h
      by_cases hp : p a = true
      · rw [List.dropWhile_cons_of_pos hp] at h
        exact ih x h
      · rw [List.dropWhile_cons_of_neg hp] at h
        simp only [List.head?_cons, Option.some.injEq] at h
        rw [← h]
        exact Bool.not_eq_true _ ▸ (by simpa using hp)

/-- Elements of `dropWhile` are elements of the list. -/
theorem mem_of_mem_dropWhile {α : Type} (p : α → Bool) (l : List α) (x : α)
    (h : x ∈ l.dropWhile p) : x ∈ l := by
  induction l with
  | nil => cases h
  | cons a t ih =>
      by_cases hp : p a = true
      · rw [List.dropWhile_cons_of_pos hp] at h
        exact List.mem_cons_of_mem a (ih h)
      · rwa [List.dropWhile_cons_of_neg hp] at h

/-- The leading-zero prefix of a byte string is a replicate of zeros. -/
theorem takeWhile_zeros_eq (bytes : List Nat) :
    bytes.takeWhile (· = 0) =
      List.replicate (bytes.takeWhile (· = 0)).length 0 := by
  apply List.eq_replicate_of_mem
  intro b hb
  have hpb := List.mem_takeWhile_imp hb
  exact of_decide_eq_true hpb

/-- Unfolding equation of `b58decode` when every character is in the
alphabet. -/
theorem b58decode_of_vals {s : List Char} {vals : List Nat}
    (h : b58Vals s = some vals) :
    b58decode s = some (List.replicate (s.takeWhile (· = '1')).length 0 ++
      (natDigits 256 (ofDigitsF 58 vals.reverse)).reverse) := by
  unfold b58decode
  rw [h]

/-- Decoding inverts encoding on byte strings: the `bs58` round trip. -/
theorem b58_roundtrip (bytes : List Nat) (h : ∀ x ∈ bytes, x < 256) :
    b58decode (b58encode bytes) = some bytes := by
  have hsplit : bytes.takeWhile (· = 0) ++ bytes.dropWhile (· = 0) = bytes :=
    List.takeWhile_append_dropWhile _ _
  have htw : bytes.takeWhile (· = 0) =
      List.replicate (bytes.takeWhile (· = 0)).length 0 := takeWhile_zeros_eq bytes
  have hval : beVal bytes = beVal (bytes.dropWhile (· = 0)) := by
    unfold beVal
    conv =>
      lhs
      rw [← hsplit, htw]
    rw [List.reverse_append, List.reverse_replicate, ofDigitsF_append_zeros]
  cases hrest : bytes.dropWhile (· = 0) with
  | nil =>
      have hz : beVal bytes = 0 := by rw [hval, hrest]; rfl
      have henc : b58encode bytes =
          List.replicate (bytes.takeWhile (· = 0)).length '1' := by
        unfold b58encode
        rw [hz]
        simp [natDigits, digitsF]
      have hvals0 : b58Vals (b58encode bytes) =
          some (List.replicate (bytes.takeWhile (· = 0)).length 0) := by
        rw [henc]
        exact b58Vals_replicate_one _
      have htk : (List.replicate (bytes.takeWhile (· = 0)).length '1').takeWhile
          (· = '1') = List.replicate (bytes.takeWhile (· = 0)).length '1' := by
        have := takeWhile_replicate_append (fun c => decide (c = '1')) '1'
          (bytes.takeWhile (· = 0)).length [] (by simp)
        simpa using this
      have hnum : ofDigitsF 58
          (List.replicate (bytes.takeWhile (· = 0)).length 0).reverse = 0 := by
        rw [List.reverse_replicate]
        have := ofDigitsF_append_zeros 58 [] (bytes.takeWhile (· = 0)).length
        simpa [ofDigitsF] using this
      rw [b58decode_of_vals hvals0, henc, htk, List.length_replicate, hnum]
      simp only [natDigits, digitsF, List.reverse_nil, List.append_nil,
        Option.some.injEq]
      calc List.replicate (bytes.takeWhile (· = 0)).length 0
          = bytes.takeWhile (· = 0) ++ [] := by rw [← htw, List.append_nil]
        _ = bytes := by rw [← hrest, hsplit]
  | cons r0 rt =>
      have hr0d : (fun x => decide (x = 0)) r0 = false := by
        apply head_dropWhile_false (fun x => decide (x = 0)) bytes
        rw [hrest]
        rfl
      have hr0 : r0 ≠ 0 := by simpa using hr0d
      have hrmem : ∀ x ∈ r0 :: rt, x < 256 := by
        intro x hx
        exact h x (mem_of_mem_dropWhile _ bytes x (hrest ▸ hx))
      have hnpos : 0 < beVal (r0 :: rt) := by
        apply ofDigitsF_pos 256 (by norm_num) _ r0 _ hr0
        rw [List.mem_reverse]
        exact List.mem_cons_self r0 rt
      have hn0 : beVal (r0 :: rt) ≠ 0 := Nat.pos_iff_ne_zero.mp hnpos
      have hnd : natDigits 58 (beVal bytes) = Nat.digits 58 (beVal (r0 :: rt)) := by
        rw [hval, hrest]
        exact natDigits_eq _ _ (by norm_num)
      have hdig_lt : ∀ d ∈ (Nat.digits 58 (beVal (r0 :: rt))).reverse, d < 58 := by
        intro d hd
        exact Nat.digits_lt_base (by norm_num) (List.mem_reverse.mp hd)
      have hvals : b58Vals (b58encode bytes) =
          some (List.replicate (bytes.takeWhile (· = 0)).length 0 ++
            (Nat.digits 58 (beVal (r0 :: rt))).reverse) := by
        unfold b58encode
        rw [hnd]
        exact b58Vals_append (b58Vals_replicate_one _)
          (b58Vals_map_b58Char _ hdig_lt)
      have hne : Nat.digits 58 (beVal (r0 :: rt)) ≠ [] :=
        Nat.digits_ne_nil_iff_ne_zero.mpr hn0
      have hlast : (Nat.digits 58 (beVal (r0 :: rt))).getLast hne ≠ 0 :=
        Nat.getLast_digit_ne_zero 58 hn0
      have hmapnil : (List.map b58Char
          (Nat.digits 58 (beVal (r0 :: rt))).reverse).takeWhile
          (fun c => decide (c = '1')) = [] := by
        apply takeWhile_eq_nil_head
        intro x hx
        rw [List.head?_map, List.head?_reverse,
          List.getLast?_eq_getLast _ hne] at hx
        simp at hx
        have hlt : (Nat.digits 58 (beVal (r0 :: rt))).getLast hne < 58 :=
          Nat.digits_lt_base (by norm_num) (List.getLast_mem hne)
        have hne1 : b58Char ((Nat.digits 58 (beVal (r0 :: rt))).getLast hne) ≠ '1' :=
          b58Char_ne_one _ hlt hlast
        rw [← hx]
        exact decide_eq_false hne1
      have htk2 : (b58encode bytes).takeWhile (· = '1') =
          List.replicate (bytes.takeWhile (· = 0)).length '1' := by
        unfold b58encode
        rw [hnd, takeWhile_replicate_append _ '1' _ _ (by simp), hmapnil,
          List.append_nil]
      have hnum2 : ofDigitsF 58
          ((List.replicate (bytes.takeWhile (· = 0)).length 0 ++
            (Nat.digits 58 (beVal (r0 :: rt))).reverse)).reverse =
          beVal (r0 :: rt) := by
        rw [List.reverse_append, List.reverse_replicate, List.reverse_reverse,
          ofDigitsF_append_zeros, ofDigitsF_eq, Nat.ofDigits_digits]
      have hback : natDigits 256 (beVal (r0 :: rt)) = (r0 :: rt).reverse := by
        rw [natDigits_eq _ _ (by norm_num)]
        have hv : beVal (r0 :: rt) = Nat.ofDigits 256 (r0 :: rt).reverse := by
          unfold beVal
          exact ofDigitsF_eq _ _
        rw [hv]
        apply Nat.digits_ofDigits 256 (by norm_num)
        · intro x hx
          exact hrmem x (List.mem_reverse.mp hx)
        · intro hne2
          have h1 : (r0 :: rt).reverse.getLast? = some r0 := by
            rw [List.getLast?_reverse]
            rfl
          rw [List.getLast?_eq_getLast _ hne2, Option.some.injEq] at h1
          rw [h1]
          exact hr0
      rw [b58decode_of_vals hvals, htk2, List.length_replicate, hnum2, hback,
        List.reverse_reverse]
      rw [Option.some.injEq]
      calc List.replicate (bytes.takeWhile (· = 0)).length 0 ++ r0 :: rt
          = bytes.takeWhile (· = 0) ++ bytes.dropWhile (· = 0) := by
            rw [← htw, hrest]
        _ = bytes := hsplit

/-- Unfolding equation of `splitCols` on a cons cell. -/
theorem splitCols_cons (c : Char) (t : Str) :
    splitCols (c :: t) =
      match splitCols t with
      | [] => [[]]
      | p :: ps => if c = ':' then [] :: p :: ps else (c :: p) :: ps := rfl

/-- Splitting never produces the empty list of parts. -/
theorem splitCols_ne_nil (s : Str) : splitCols s ≠ [] := by
  cases s with
  | nil => simp [splitCols]
  | cons c t =>
      rw [splitCols_cons]
      match splitCols t with
      | [] => simp
      | p :: ps =>
          by_cases hc : c = ':' <;> simp [hc]

/-- A string without a colon is one part. -/
theorem splitCols_no_colon (s : Str) (h : ':' ∉ s) : splitCols s = [s] := by
  induction s with
  | nil => rfl
  | cons c t ih =>
      have hc : c ≠ ':' := fun hh => h (hh ▸ List.mem_cons_self c t)
      have ht : ':' ∉ t := fun hh => h (List.mem_cons_of_mem c hh)
      rw [splitCols_cons, ih ht]
      simp [hc]

/-- A string with exactly one colon splits into its two sides. -/
theorem splitCols_two (p q : Str) (hp : ':' ∉ p) (hq : ':' ∉ q) :
    splitCols (p ++ ':' :: q) = [p, q] := by
  induction p with
  | nil =>
      rw [List.nil_append, splitCols_cons, splitCols_no_colon q hq]
      simp
  | cons c pt ih =>
      have hc : c ≠ ':' := fun hh => hp (hh ▸ List.mem_cons_self c pt)
      have hpt : ':' ∉ pt := fun hh => hp (List.mem_cons_of_mem c hh)
      rw [List.cons_append, splitCols_cons, ih hpt]
      simp [hc]

/-- The number of parts is the number of colons plus one. -/
theorem splitCols_length (s : Str) : (splitCols s).length = s.count ':' + 1 := by
  induction s with
  | nil => rfl
  | cons c t ih =>
      rw [splitCols_cons]
      match hsp : splitCols t with
      | [] => exact absurd hsp (splitCols_ne_nil t)
      | p :: ps =>
          rw [hsp] at ih
          show (if c = ':' then [] :: p :: ps else (c :: p) :: ps).length =
            List.count ':' (c :: t) + 1
          by_cases hc : c = ':'
          · subst hc
            rw [if_pos rfl, List.count_cons_self]
            simp only [List.length_cons] at ih ⊢
            omega
          · rw [if_neg hc, List.count_cons_of_ne (fun hh => hc hh.symm)]
            simp only [List.length_cons] at ih ⊢
            omega

/-- Every character the encoder emits is an alphabet character. -/
theorem b58encode_mem_alphabet (bytes : List Nat) :
    ∀ c ∈ b58encode bytes, c ∈ b58Alphabet := by
  intro c hc
  unfold b58encode at hc
  rcases List.mem_append.mp hc with h1 | h1
  · rw [List.eq_of_mem_replicate h1]
    decide
  · obtain ⟨d, hd, rfl⟩ := List.mem_map.mp h1
    apply b58Char_mem
    rw [natDigits_eq _ _ (by norm_num)] at hd
    exact Nat.digits_lt_base (by norm_num) (List.mem_reverse.mp hd)

/-- The checksum is 4 bytes. -/
theorem compute_checksum_length (p : List Nat) : (compute_checksum p).length = 4 := by
  unfold compute_checksum
  rw [List.length_take, sha256_length]
  omega

/-- Evaluation of `validate_address` on a well-shaped address: one colon,
decodable suffix of at least 21 bytes. -/
theorem validate_eval (p q : Str) (bs : List Nat) (hp : ':' ∉ p) (hq : ':' ∉ q)
    (hdec : b58decode q = some bs) (hlen : 21 ≤ bs.length) :
    validate_address (p ++ ':' :: q) =
      Except.ok (decide (bs.drop (bs.length - 4) =
        compute_checksum (bs.take (bs.length - 4)))) := by
  have hmem : ':' ∈ p ++ ':' :: q :=
    List.mem_append.mpr (Or.inr (List.mem_cons_self _ _))
  have hsp : splitCols (p ++ ':' :: q) = [p, q] := splitCols_two p q hp hq
  unfold validate_address
  rw [if_neg (not_not_intro hmem), hsp]
  rw [if_neg (by simp)]
  simp only [List.getD_cons_succ, List.getD_cons_zero]
  rw [hdec]
  show (if bs.length < 21 then Except.ok false
    else Except.ok (decide (List.drop (bs.length - 4) bs =
      compute_checksum (List.take (bs.length - 4) bs)))) = _
  rw [if_neg (by omega)]

/-- Hex digits below 16 are lowercase hex characters. -/
theorem hexDigit_mem : ∀ d < 16, hexDigit d ∈ hexChars := by decide

/-- Every lowercase hex digit decodes back to itself. -/
theorem hexVal_hexDigit : ∀ d < 16, hexVal (hexDigit d) = some d := by decide

/-- A hex digit value is below 16. -/
theorem hexVal_lt {c : Char} {v : Nat} (h : hexVal c = some v) : v < 16 := by
  unfold hexVal at h
  cases h1 : alphaIdx hexChars c with
  | some u =>
      rw [h1] at h
      injection h with hh
      subst hh
      exact alphaIdx_lt h1
  | none =>
      rw [h1] at h
      exact alphaIdx_lt h

/-- `hexEncode` writes two characters per byte. -/
theorem hexEncode_length (bytes : List Nat) :
    (hexEncode bytes).length = 2 * bytes.length := by
  induction bytes with
  | nil => rfl
  | cons b t ih =>
      show (hexDigit (b / 16) :: hexDigit (b % 16) :: hexEncode t).length = _
      simp only [List.length_cons, ih, List.length_cons]
      ring

/-- `hexEncode` emits only lowercase hex characters on byte input. -/
theorem hexEncode_mem (bytes : List Nat) (h : ∀ b ∈ bytes, b < 256) :
    ∀ c ∈ hexEncode bytes, c ∈ hexChars := by
  intro c hc
  obtain ⟨b, hb, hcb⟩ := concatB_mem _ _ _ hc
  have hblt := h b hb
  have h1 : b / 16 < 16 := by omega
  have h2 : b % 16 < 16 := Nat.mod_lt _ (by norm_num)
  rcases List.mem_cons.mp hcb with rfl | hcb2
  · exact hexDigit_mem _ h1
  · rcases List.mem_cons.mp hcb2 with rfl | hcb3
    · exact hexDigit_mem _ h2
    · cases hcb3

/-- Unfolding equation of `hexDecode` on a character pair. -/
theorem hexDecode_cons2 (c1 c2 : Char) (rest : Str) :
    hexDecode (c1 :: c2 :: rest) =
      match hexVal c1, hexVal c2, hexDecode rest with
      | some hi, some lo, some bs => some ((16 * hi + lo) :: bs)
      | _, _, _ => none := rfl

/-- `hex::decode` inverts `hex::encode` on byte strings. -/
theorem hexDecode_hexEncode (bytes : List Nat) (h : ∀ b ∈ bytes, b < 256) :
    hexDecode (hexEncode bytes) = some bytes := by
  induction bytes with
  | nil => rfl
  | cons b t ih =>
      have hblt := h b (List.mem_cons_self b t)
      have h1 : b / 16 < 16 := by omega
      have h2 : b % 16 < 16 := Nat.mod_lt _ (by norm_num)
      show hexDecode (hexDigit (b / 16) :: hexDigit (b % 16) :: hexEncode t) = _
      rw [hexDecode_cons2, hexVal_hexDigit _ h1, hexVal_hexDigit _ h2,
        ih (fun x hx => h x (List.mem_cons_of_mem b hx))]
      show some ((16 * (b / 16) + b % 16) :: t) = some (b :: t)
      have : 16 * (b / 16) + b % 16 = b := by omega
      rw [this]

/-- Bytes produced by `hexDecode` are bytes. -/
theorem hexDecode_lt : ∀ (s : Str) (bs : List Nat), hexDecode s = some bs →
    ∀ b ∈ bs, b < 256 := by
  intro s
  induction s using hexDecode.induct with
  | case1 =>
      intro bs h b hb
      injection h with hh
      rw [← hh] at hb
      cases hb
  | case2 c => intro bs h; cases h
  | case3 c1 c2 rest hi lo bs2 h3 h2 h1 ih =>
      intro bs h b hb
      rw [hexDecode_cons2, h1, h2, h3] at h
      injection h with hh
      rw [← hh] at hb
      rcases List.mem_cons.mp hb with rfl | hbt
      · have := hexVal_lt h1
        have := hexVal_lt h2
        omega
      · exact ih bs2 h3 b hbt
  | case4 c1 c2 rest hfail ih =>
      intro bs h
      rw [hexDecode_cons2] at h
      match hv1 : hexVal c1, hv2 : hexVal c2, hv3 : hexDecode rest with
      | some a1, some a2, some a3 => exact absurd (hfail a1 a2 a3 hv1 hv2 hv3) id
      | none, _, _ => rw [hv1] at h; cases h
      | some a1, none, _ => rw [hv1, hv2] at h; cases h
      | some a1, some a2, none => rw [hv1, hv2, hv3] at h; cases h

/-- The compressed serialization is 33 bytes long. -/
theorem serialize_length (pk : PublicKey) : (PublicKey.serialize pk).length = 33 := by
  unfold PublicKey.serialize
  rw [List.length_cons, beBytesFixed_length]

/-- The compressed serialization consists of bytes. -/
theorem serialize_lt (pk : PublicKey) : ∀ b ∈ PublicKey.serialize pk, b < 256 := by
  intro b hb
  unfold PublicKey.serialize at hb
  rcases List.mem_cons.mp hb with rfl | hb2
  · split <;> norm_num
  · exact beBytesFixed_lt 32 pk.x b hb2

/-- Adding inputs never touches the output list. -/
theorem addInputsLoop_outputs : ∀ (ins : List (Str × Nat)) (t : Transaction),
    (addInputsLoop t ins).outputs = t.outputs := by
  intro ins
  induction ins with
  | nil => intro t; rfl
  | cons p rest ih =>
      intro t
      cases p with
      | mk txid vout => exact ih (t.add_input txid vout)

/-- Unfolding equation of the output loop on a cons cell. -/
theorem addOutputsLoop_cons (t : Transaction) (a : Str) (m : Nat)
    (rest : List (Str × Nat)) :
    addOutputsLoop t ((a, m) :: rest) =
      match validate_address a with
      | Except.error e => Except.error e
      | Except.ok false => Except.error (Err.invalidAddress a)
      | Except.ok true => addOutputsLoop (t.add_output a m) rest := rfl

/-- Every output surviving the output loop was already present or carries a
validated address. -/
theorem addOutputsLoop_ok : ∀ (outs : List (Str × Nat)) (t t2 : Transaction),
    addOutputsLoop t outs = Except.ok t2 →
    ∀ o ∈ t2.outputs, o ∈ t.outputs ∨ validate_address o.address = Except.ok true := by
  intro outs
  induction outs with
  | nil =>
      intro t t2 h o ho
      injection h with hh
      rw [← hh] at ho
      exact Or.inl ho
  | cons p rest ih =>
      intro t t2 h o ho
      cases p with
      | mk a m =>
          rw [addOutputsLoop_cons] at h
          cases hv : validate_address a with
          | error e => rw [hv] at h; cases h
          | ok b =>
              cases b with
              | false => rw [hv] at h; cases h
              | true =>
                  rw [hv] at h
                  rcases ih (t.add_output a m) t2 h o ho with h1 | h1
                  · rcases List.mem_append.mp h1 with h2 | h2
                    · exact Or.inl h2
                    · rcases List.mem_cons.mp h2 with rfl | h3
                      · exact Or.inr hv
                      · cases h3
                  · exact Or.inr h1

/-- The output loop rejects a list containing an invalid address. -/
theorem addOutputsLoop_err : ∀ (outs : List (Str × Nat)) (t : Transaction)
    (a : Str) (m : Nat), (a, m) ∈ outs → validate_address a = Except.ok false →
    ∀ t2, addOutputsLoop t outs ≠ Except.ok t2 := by
  intro outs
  induction outs with
  | nil => intro t a m hm; cases hm
  | cons p rest ih =>
      intro t a m hm hv t2
      cases p with
      | mk b bm =>
          rw [addOutputsLoop_cons]
          cases hvb : validate_address b with
          | error e => intro h; cases h
          | ok bb =>
              cases bb with
              | false => intro h; cases h
              | true =>
                  rcases List.mem_cons.mp hm with heq | hmr
                  · injection heq with h1 h2
                    rw [h1] at hv
                    rw [hv] at hvb
                    cases hvb
                  · exact ih (t.add_output b bm) a m hmr hv t2

/-- Unfolding equation of the signing loop on a cons cell. -/
theorem signLoop_cons (sk : SecretKey) (pk : PublicKey) (t : Transaction)
    (i : Nat) (rest : List Nat) :
    signLoop sk pk t (i :: rest) =
      match Transaction.sign_input t i sk pk with
      | (t2, Except.ok _) => signLoop sk pk t2 rest
      | (_, Except.error e) => Except.error e := rfl

/-- Signing touches only the inputs: outputs survive the signing loop. -/
theorem signLoop_outputs : ∀ (l : List Nat) (sk : SecretKey) (pk : PublicKey)
    (t t2 : Transaction), signLoop sk pk t l = Except.ok t2 →
    t2.outputs = t.outputs := by
  intro l
  induction l with
  | nil =>
      intro sk pk t t2 h
      injection h with hh
      rw [hh]
  | cons i rest ih =>
      intro sk pk t t2 h
      rw [signLoop_cons] at h
      by_cases hi : i < t.inputs.length
      · have hsig : Transaction.sign_input t i sk pk =
            (Transaction.mk t.version
              (t.inputs.set i
                (TxInput.mk (t.inputs.getD i (TxInput.mk [] 0 none)).txid
                  (t.inputs.getD i (TxInput.mk [] 0 none)).vout
                  (some (mkSignature (signingPayload t) sk))))
              t.outputs,
             Except.ok ()) := by
          unfold Transaction.sign_input
          rw [if_pos hi]
        rw [hsig] at h
        have h2 : signLoop sk pk
            (Transaction.mk t.version
              (t.inputs.set i
                (TxInput.mk (t.inputs.getD i (TxInput.mk [] 0 none)).txid
                  (t.inputs.getD i (TxInput.mk [] 0 none)).vout
                  (some (mkSignature (signingPayload t) sk))))
              t.outputs) rest = Except.ok t2 := h
        exact ih sk pk
          (Transaction.mk t.version
            (t.inputs.set i
              (TxInput.mk (t.inputs.getD i (TxInput.mk [] 0 none)).txid
                (t.inputs.getD i (TxInput.mk [] 0 none)).vout
                (some (mkSignature (signingPayload t) sk))))
            t.outputs) t2 h2
      · have hsig : Transaction.sign_input t i sk pk =
            (t, Except.error Err.indexOutOfRange) := by
          unfold Transaction.sign_input
          rw [if_neg hi]
        rw [hsig] at h
        cases h

/-- Evaluation of `validate_address` when the suffix fails to decode. -/
theorem validate_decode_none (p q : Str) (hp : ':' ∉ p) (hq : ':' ∉ q)
    (hdec : b58decode q = none) :
    validate_address (p ++ ':' :: q) = Except.ok false := by
  have hmem : ':' ∈ p ++ ':' :: q :=
    List.mem_append.mpr (Or.inr (List.mem_cons_self _ _))
  unfold validate_address
  rw [if_neg (not_not_intro hmem), splitCols_two p q hp hq, if_neg (by simp)]
  simp only [List.getD_cons_succ, List.getD_cons_zero]
  rw [hdec]

/-- Evaluation of `validate_address` when the suffix decodes below the
21-byte floor. -/
theorem validate_short (p q : Str) (bs : List Nat) (hp : ':' ∉ p) (hq : ':' ∉ q)
    (hdec : b58decode q = some bs) (hlen : bs.length < 21) :
    validate_address (p ++ ':' :: q) = Except.ok false := by
  have hmem : ':' ∈ p ++ ':' :: q :=
    List.mem_append.mpr (Or.inr (List.mem_cons_self _ _))
  unfold validate_address
  rw [if_neg (not_not_intro hmem), splitCols_two p q hp hq, if_neg (by simp)]
  simp only [List.getD_cons_succ, List.getD_cons_zero]
  rw [hdec]
  show (if bs.length < 21 then Except.ok false
    else Except.ok (decide (List.drop (bs.length - 4) bs =
      compute_checksum (List.take (bs.length - 4) bs)))) = _
  rw [if_pos hlen]

/-- Claim C1: for every secp256k1 public key and every nonempty network
prefix containing no colon, validating the address produced by the encoder
succeeds: any `a` with `generate_address pk pre = Ok a` satisfies
`validate_address a = Ok true`. -/
theorem claim_C1 (pk : PublicKey) (pre : Str) (hne : pre ≠ []) (hp : ':' ∉ pre)
    (a : Str) (hgen : generate_address pk pre = Except.ok a) :
    validate_address a = Except.ok true := by
  have hgen2 : generate_address pk pre =
      Except.ok (pre ++ ':' :: b58encode
        ((0 :: ripemd160 (sha256 (PublicKey.serialize pk))) ++
          compute_checksum (0 :: ripemd160 (sha256 (PublicKey.serialize pk))))) := rfl
  rw [hgen2] at hgen
  injection hgen with ha
  subst ha
  set payload := 0 :: ripemd160 (sha256 (PublicKey.serialize pk)) with hpay
  set full := payload ++ compute_checksum payload with hfull
  have hlt : ∀ x ∈ full, x < 256 := by
    intro x hx
    rw [hfull] at hx
    rcases List.mem_append.mp hx with h1 | h1
    · rw [hpay] at h1
      rcases List.mem_cons.mp h1 with rfl | h2
      · norm_num
      · exact ripemd160_lt _ x h2
    · unfold compute_checksum at h1
      exact sha256_lt _ x (List.take_subset _ _ h1)
  have hplen : payload.length = 21 := by
    rw [hpay, List.length_cons, ripemd160_length]
  have hflen : full.length = 25 := by
    rw [hfull, List.length_append, hplen, compute_checksum_length]
  have hq : ':' ∉ b58encode full := fun hin =>
    colon_not_mem_b58 (b58encode_mem_alphabet full ':' hin)
  have hdec := b58_roundtrip full hlt
  rw [validate_eval pre (b58encode full) full hp hq hdec (by omega)]
  have h21 : full.length - 4 = payload.length := by omega
  have hdrop : full.drop (full.length - 4) = compute_checksum payload := by
    rw [h21, hfull, List.drop_left]
  have htake : full.take (full.length - 4) = payload := by
    rw [h21, hfull, List.take_left]
  rw [hdrop, htake,
    decide_eq_true (rfl : compute_checksum payload = compute_checksum payload)]

set_option maxRecDepth 100000 in
/-- Witness for C1 at the secp256k1 generator point and the mainnet
prefix: the produced address is the pinned golden value and validates. -/
theorem claim_C1_witness :
    validate_address ("kaspa:1BgGZ9tcN4rm9KBzDn7KprQz87SZ26SAMH".toList) =
      Except.ok true :=
  claim_C1 (PublicKey.mk secpGx secpGy) "kaspa".toList (by decide) (by decide)
    ("kaspa:1BgGZ9tcN4rm9KBzDn7KprQz87SZ26SAMH".toList) (by rfl)


/-- Any string containing a colon splits at its first colon. -/
theorem split_first_colon (s : Str) (h : ':' ∈ s) :
    ∃ p q : Str, ':' ∉ p ∧ s = p ++ ':' :: q := by
  induction s with
  | nil => cases h
  | cons c t ih =>
      by_cases hc : c = ':'
      · exact ⟨[], t, by simp, by rw [hc]; rfl⟩
      · have hct : ':' ∈ t := by
          rcases List.mem_cons.mp h with h2 | h2
          · exact absurd h2.symm hc
          · exact h2
        obtain ⟨p, q, hp, hs⟩ := ih hct
        refine ⟨c :: p, q, ?_, ?_⟩
        · intro hin
          rcases List.mem_cons.mp hin with h2 | h2
          · exact hc h2.symm
          · exact hp h2
        · rw [List.cons_append, ← hs]

/-- A string with at least two colons is rejected. -/
theorem validate_multi_colon (s : Str) (h : 2 ≤ List.count ':' s) :
    validate_address s = Except.ok false := by
  have hmem : ':' ∈ s := by
    have hpos : 0 < List.count ':' s := by omega
    exact List.count_pos_iff.mp hpos
  unfold validate_address
  rw [if_neg (not_not_intro hmem), if_pos (by rw [splitCols_length]; omega)]

/-- Claim C2: `validate_address` is total — it returns `Ok` on every
string — and returns `Ok false` on the empty string, on strings without a
colon, on strings with two or more colons, on a suffix containing a
non-base58 character, and on a suffix decoding to fewer than 5 bytes. -/
theorem claim_C2 :
    (∀ s : Str, ∃ b, validate_address s = Except.ok b) ∧
    validate_address [] = Except.ok false ∧
    (∀ s : Str, ':' ∉ s → validate_address s = Except.ok false) ∧
    (∀ s : Str, 2 ≤ List.count ':' s → validate_address s = Except.ok false) ∧
    (∀ p q : Str, ':' ∉ p → ':' ∉ q → (∃ c ∈ q, c ∉ b58Alphabet) →
      validate_address (p ++ ':' :: q) = Except.ok false) ∧
    (∀ (p q : Str) (bs : List Nat), ':' ∉ p → ':' ∉ q → b58decode q = some bs →
      bs.length < 5 → validate_address (p ++ ':' :: q) = Except.ok false) := by
  refine ⟨?_, ?_, ?_, validate_multi_colon, ?_, ?_⟩
  · intro s
    by_cases h1 : ':' ∈ s
    · obtain ⟨p, q, hp, rfl⟩ := split_first_colon s h1
      by_cases hq : ':' ∈ q
      · refine ⟨false, validate_multi_colon _ ?_⟩
        rw [List.count_append, List.count_cons_self]
        have hqpos : 0 < List.count ':' q := List.count_pos_iff.mpr hq
        omega
      · cases hd : b58decode q with
        | none => exact ⟨false, validate_decode_none p q hp hq hd⟩
        | some bs =>
            by_cases hlen : 21 ≤ bs.length
            · exact ⟨_, validate_eval p q bs hp hq hd hlen⟩
            · exact ⟨false, validate_short p q bs hp hq hd (by omega)⟩
    · refine ⟨false, ?_⟩
      unfold validate_address
      rw [if_pos h1]
  · unfold validate_address
    rw [if_pos (by decide)]
  · intro s h
    unfold validate_address
    rw [if_pos h]
  · rintro p q hp hq ⟨c, hcq, hcn⟩
    apply validate_decode_none p q hp hq
    unfold b58decode
    rw [b58Vals_none hcq hcn]
  · intro p q bs hp hq hdec hlen
    exact validate_short p q bs hp hq hdec (by omega)

/-- Witness for C2 on concrete malformed inputs: a non-base58 suffix, a
suffix decoding to one byte, a doubly-delimited string, and a string with
no delimiter. -/
theorem claim_C2_witness :
    validate_address ("ab".toList ++ ':' :: "!?".toList) = Except.ok false ∧
    validate_address ("ab".toList ++ ':' :: "1".toList) = Except.ok false ∧
    validate_address "a:b:c".toList = Except.ok false ∧
    validate_address "abc".toList = Except.ok false :=
  ⟨claim_C2.2.2.2.2.1 "ab".toList "!?".toList (by decide) (by decide)
      ⟨'!', by decide, by decide⟩,
   claim_C2.2.2.2.2.2 "ab".toList "1".toList [0] (by decide) (by decide) (by rfl)
      (by decide),
   claim_C2.2.2.2.1 "a:b:c".toList (by decide),
   claim_C2.2.2.1 "abc".toList (by decide)⟩

/-- Claim C3: `generate_address` always returns `Ok` with the string
`prefix ++ ":" ++ base58(payload)` where the payload is the 25-byte
sequence of version byte 0, the RIPEMD-160 of the SHA-256 of the 33-byte
serialized public key, and the first 4 bytes of the double SHA-256 of the
versioned hash as checksum. -/
theorem claim_C3 (pk : PublicKey) (pre : Str) :
    generate_address pk pre =
      Except.ok (pre ++ ':' :: b58encode
        ((0 :: ripemd160 (sha256 (PublicKey.serialize pk))) ++
          (sha256 (sha256 (0 :: ripemd160 (sha256 (PublicKey.serialize pk))))).take 4)) ∧
    ((0 :: ripemd160 (sha256 (PublicKey.serialize pk))) ++
      (sha256 (sha256 (0 :: ripemd160 (sha256 (PublicKey.serialize pk))))).take 4).length
      = 25 ∧
    (PublicKey.serialize pk).length = 33 := by
  refine ⟨rfl, ?_, serialize_length pk⟩
  rw [List.length_append, List.length_cons, ripemd160_length, List.length_take,
    sha256_length]
  omega

/-- Counterexample to C4 as stated: the fee-estimation construction path
appends a `TxOutput` whose address is the placeholder string, which fails
validation, so not every construction path that appends an output carries
a validated address (this is the transaction `estimate_transaction_fee`
builds, as the third conjunct ties down). -/
theorem claim_C4_counterexample :
    ((dummyTx 0 1).outputs.getD 0 (TxOutput.mk [] 0)).address = "dummy".toList ∧
    validate_address ((dummyTx 0 1).outputs.getD 0 (TxOutput.mk [] 0)).address =
      Except.ok false ∧
    KaspaWallet.estimate_transaction_fee wOne 0 1 1000 =
      Transaction.estimate_fee (dummyTx 0 1) 1000 := by
  refine ⟨rfl, ?_, rfl⟩
  show validate_address ("dummy".toList) = Except.ok false
  unfold validate_address
  rw [if_pos (by decide)]

/-- Claim C4 (amended to the `create_transaction` path): every output of a
transaction returned by `create_transaction` carries an address that
passes validation, and an outputs list containing an address failing
validation makes `create_transaction` return an error, so that output
never reaches an output list.  The fee-estimation dummy path is exempt, as
its placeholder outputs intentionally bypass validation. -/
theorem claim_C4 :
    (∀ (w : KaspaWallet) (ins outs : List (Str × Nat)) (fr : Nat) (tx : Transaction),
      KaspaWallet.create_transaction w ins outs fr = Except.ok tx →
      ∀ o ∈ tx.outputs, validate_address o.address = Except.ok true) ∧
    (∀ (w : KaspaWallet) (ins outs : List (Str × Nat)) (fr : Nat) (a : Str) (m : Nat),
      (a, m) ∈ outs → validate_address a = Except.ok false →
      ∀ tx, KaspaWallet.create_transaction w ins outs fr ≠ Except.ok tx) := by
  constructor
  · intro w ins outs fr tx h o ho
    cases haol : addOutputsLoop (addInputsLoop Transaction.new ins) outs with
    | error e =>
        unfold KaspaWallet.create_transaction at h
        rw [haol] at h
        cases h
    | ok tx2 =>
        have h2 : signLoop w.secret_key w.public_key tx2
            (List.range tx2.inputs.length) = Except.ok tx := by
          unfold KaspaWallet.create_transaction at h
          rw [haol] at h
          exact h
        have houts := signLoop_outputs _ w.secret_key w.public_key _ _ h2
        rcases addOutputsLoop_ok outs _ tx2 haol o (houts ▸ ho) with h3 | h3
        · rw [addInputsLoop_outputs] at h3
          cases h3
        · exact h3
  · intro w ins outs fr a m hm hv tx h
    cases haol : addOutputsLoop (addInputsLoop Transaction.new ins) outs with
    | error e =>
        unfold KaspaWallet.create_transaction at h
        rw [haol] at h
        cases h
    | ok tx2 => exact addOutputsLoop_err outs _ a m hm hv tx2 haol

/-- Witness for the amended C4: a transfer to the string that is not an
address is refused. -/
theorem claim_C4_witness :
    KaspaWallet.create_transaction wOne [] [("not-an-address".toList, 5)] 1000 ≠
      Except.ok (Transaction.mk 1 [] []) :=
  claim_C4.2 wOne [] [("not-an-address".toList, 5)] 1000 "not-an-address".toList 5
    (List.mem_cons_self _ _)
    (by unfold validate_address; rw [if_pos (by decide)])
    (Transaction.mk 1 [] [])

/-- Claim C5: signing an input index at or above the input count fails
with the index-out-of-range error and leaves the transaction unchanged
(same version, inputs, outputs and signatures). -/
theorem claim_C5 (t : Transaction) (i : Nat) (sk : SecretKey) (pk : PublicKey)
    (h : t.inputs.length ≤ i) :
    Transaction.sign_input t i sk pk = (t, Except.error Err.indexOutOfRange) := by
  unfold Transaction.sign_input
  rw [if_neg (by omega)]

/-- Witness for C5: signing index 3 of a one-input transaction fails and
returns the transaction unchanged. -/
theorem claim_C5_witness :
    Transaction.sign_input txOne 3 skOne pkOne =
      (txOne, Except.error Err.indexOutOfRange) :=
  claim_C5 txOne 3 skOne pkOne (by decide)

/-- Claim C6: the fee estimate is the ceiling of the linear model
`estimated_size_bytes * fee_rate / 1000` over the placeholder transaction,
stated as the exact quotient formula together with the two ceiling bounds,
and at 2 inputs, 3 outputs and fee rate 1000 the fee equals the estimated
byte size itself. -/
theorem claim_C6 (w : KaspaWallet) (ic oc fr : Nat) :
    KaspaWallet.estimate_transaction_fee w ic oc fr =
      ((Transaction.serializeBytes (dummyTx ic oc)).length * fr + 999) / 1000 ∧
    (Transaction.serializeBytes (dummyTx ic oc)).length * fr ≤
      1000 * KaspaWallet.estimate_transaction_fee w ic oc fr ∧
    (∀ m : Nat, (Transaction.serializeBytes (dummyTx ic oc)).length * fr ≤ 1000 * m →
      KaspaWallet.estimate_transaction_fee w ic oc fr ≤ m) ∧
    KaspaWallet.estimate_transaction_fee w 2 3 1000 =
      (Transaction.serializeBytes (dummyTx 2 3)).length := by
  have he : KaspaWallet.estimate_transaction_fee w ic oc fr =
      ((Transaction.serializeBytes (dummyTx ic oc)).length * fr + 999) / 1000 := rfl
  refine ⟨he, ?_, ?_, by rfl⟩
  · rw [he]
    have h1 := Nat.div_add_mod
      ((Transaction.serializeBytes (dummyTx ic oc)).length * fr + 999) 1000
    have h2 : ((Transaction.serializeBytes (dummyTx ic oc)).length * fr + 999) % 1000
        < 1000 := Nat.mod_lt _ (by norm_num)
    omega
  · intro m hm
    rw [he]
    have h1 := Nat.div_add_mod
      ((Transaction.serializeBytes (dummyTx ic oc)).length * fr + 999) 1000
    have h2 : ((Transaction.serializeBytes (dummyTx ic oc)).length * fr + 999) % 1000
        < 1000 := Nat.mod_lt _ (by norm_num)
    omega

/-- Witness for C6 at 2 inputs, 3 outputs and fee rate 1000: the fee is at
most the byte size (minimality bound at the byte size itself) and equals
the byte size. -/
theorem claim_C6_witness :
    KaspaWallet.estimate_transaction_fee wOne 2 3 1000 ≤
      (Transaction.serializeBytes (dummyTx 2 3)).length ∧
    KaspaWallet.estimate_transaction_fee wOne 2 3 1000 =
      (Transaction.serializeBytes (dummyTx 2 3)).length :=
  ⟨(claim_C6 wOne 2 3 1000).2.2.1 (Transaction.serializeBytes (dummyTx 2 3)).length
      (by decide),
   (claim_C6 wOne 2 3 1000).2.2.2⟩

/-- Claim C7: the validator checks only structure and checksum, not the
version byte or a closed prefix set: any `p ++ ":" ++ s` with colon-free
`p` whose suffix decodes to at least 21 bytes ending in the correct
double-SHA-256 checksum validates, whatever the first decoded byte is. -/
theorem claim_C7 (p s : Str) (bs : List Nat) (hp : ':' ∉ p)
    (hdec : b58decode s = some bs) (hlen : 21 ≤ bs.length)
    (hck : bs.drop (bs.length - 4) = compute_checksum (bs.take (bs.length - 4))) :
    validate_address (p ++ ':' :: s) = Except.ok true := by
  have hq : ':' ∉ s := by
    intro hin
    have hnone : b58Vals s = none := b58Vals_none hin colon_not_mem_b58
    unfold b58decode at hdec
    rw [hnone] at hdec
    cases hdec
  rw [validate_eval p s bs hp hq hdec hlen, decide_eq_true hck]

set_option maxRecDepth 100000 in
/-- Witness for C7: a payload with version byte 5 under the unknown
prefix string still validates. -/
theorem claim_C7_witness :
    validate_address ("fakenet".toList ++ ':' :: b58encode c7Full) =
      Except.ok true :=
  claim_C7 "fakenet".toList (b58encode c7Full) c7Full (by decide)
    (b58_roundtrip c7Full (by decide)) (by decide) (by decide)

/-- Claim C8: every wallet any constructor produces stores a public key
equal to the elliptic-curve multiplication of its stored secret key; the
public key is derived, never accepted as input. -/
theorem claim_C8 :
    (∀ (sk : SecretKey) (w : KaspaWallet), KaspaWallet.new sk = Except.ok w →
      w.public_key = PublicKey.from_secret_key w.secret_key ∧ w.secret_key = sk) ∧
    (∀ (sk : SecretKey) (net : Str) (w : KaspaWallet),
      KaspaWallet.with_network sk net = Except.ok w →
      w.public_key = PublicKey.from_secret_key w.secret_key ∧ w.secret_key = sk) ∧
    (∀ (mb : List Nat) (dp : Str) (w : KaspaWallet),
      KaspaWallet.from_mnemonic mb dp = Except.ok w →
      w.public_key = PublicKey.from_secret_key w.secret_key) := by
  refine ⟨?_, ?_, ?_⟩
  · intro sk w h
    injection h with hh
    rw [← hh]
    exact ⟨rfl, rfl⟩
  · intro sk net w h
    injection h with hh
    rw [← hh]
    exact ⟨rfl, rfl⟩
  · intro mb dp w h
    have h2 : (match SecretKey.from_slice ((sha256 mb).take 32) with
        | none => Except.error Err.invalidSecretKey
        | some sk => KaspaWallet.new sk) = Except.ok w := h
    cases hsl : SecretKey.from_slice ((sha256 mb).take 32) with
    | none =>
        rw [hsl] at h2
        cases h2
    | some sk =>
        rw [hsl] at h2
        injection h2 with hh
        rw [← hh]

set_option maxRecDepth 100000 in
/-- Witness for C8: the invariant at concrete wallets built by each of the
three constructors. -/
theorem claim_C8_witness :
    wOne.public_key = PublicKey.from_secret_key wOne.secret_key ∧
    wNet.public_key = PublicKey.from_secret_key wNet.secret_key ∧
    wMn.public_key = PublicKey.from_secret_key wMn.secret_key :=
  ⟨(claim_C8.1 skOne wOne rfl).1,
   (claim_C8.2.1 skOne "testnet".toList wNet rfl).1,
   claim_C8.2.2 mnemonicW "m".toList wMn (by rfl)⟩

/-- Claim C9: `get_private_key` is the lowercase hex encoding of the
32-byte secret key (64 hex characters, decodable back to the bytes), and
`get_public_key` is the lowercase hex encoding of the 33-byte compressed
public key (66 hex characters, decodable back to the bytes). -/
theorem claim_C9 (w : KaspaWallet) :
    KaspaWallet.get_private_key w = hexEncode (SecretKey.secret_bytes w.secret_key) ∧
    (KaspaWallet.get_private_key w).length = 64 ∧
    (KaspaWallet.get_private_key w).all (fun c => decide (c ∈ hexChars)) = true ∧
    hexDecode (KaspaWallet.get_private_key w) =
      some (SecretKey.secret_bytes w.secret_key) ∧
    KaspaWallet.get_public_key w = hexEncode (PublicKey.serialize w.public_key) ∧
    (KaspaWallet.get_public_key w).length = 66 ∧
    (KaspaWallet.get_public_key w).all (fun c => decide (c ∈ hexChars)) = true ∧
    hexDecode (KaspaWallet.get_public_key w) =
      some (PublicKey.serialize w.public_key) := by
  have hsk := w.secret_key.len32
  have hsb := w.secret_key.lt256
  refine ⟨rfl, ?_, ?_, ?_, rfl, ?_, ?_, ?_⟩
  · show (hexEncode w.secret_key.bytes).length = 64
    rw [hexEncode_length, hsk]
  · rw [List.all_eq_true]
    intro c hc
    exact decide_eq_true (hexEncode_mem _ hsb c hc)
  · show hexDecode (hexEncode w.secret_key.bytes) = some w.secret_key.bytes
    exact hexDecode_hexEncode _ hsb
  · show (hexEncode (PublicKey.serialize w.public_key)).length = 66
    rw [hexEncode_length, serialize_length]
  · rw [List.all_eq_true]
    intro c hc
    exact decide_eq_true (hexEncode_mem _ (serialize_lt w.public_key) c hc)
  · exact hexDecode_hexEncode _ (serialize_lt w.public_key)

/-- Claim C10: `validate_private_key` is total and returns `Ok` of exactly
the spec's acceptance condition — valid hex of exactly 32 bytes forming a
nonzero scalar below the secp256k1 group order — so the all-zero 64-digit
string yields `Ok false`. -/
theorem claim_C10 :
    (∀ s : Str, KaspaWallet.validate_private_key s =
      Except.ok (specValidPrivateKey s)) ∧
    KaspaWallet.validate_private_key (List.replicate 64 '0') = Except.ok false := by
  constructor
  · intro s
    unfold KaspaWallet.validate_private_key specValidPrivateKey
    cases hd : hexDecode s with
    | none => rfl
    | some bs =>
        show (if bs.length ≠ 32 then Except.ok false
            else Except.ok (SecretKey.from_slice bs).isSome) =
          Except.ok (decide (bs.length = 32 ∧ 0 < beVal bs ∧ beVal bs < secpN))
        by_cases hl : bs.length = 32
        · rw [if_neg (not_not_intro hl)]
          have hb : ∀ b ∈ bs, b < 256 := hexDecode_lt s bs hd
          unfold SecretKey.from_slice
          by_cases hc : 0 < beVal bs ∧ beVal bs < secpN
          · rw [dif_pos ⟨hl, hb, hc.1, hc.2⟩,
              decide_eq_true (⟨hl, hc.1, hc.2⟩ :
                bs.length = 32 ∧ 0 < beVal bs ∧ beVal bs < secpN)]
            rfl
          · rw [dif_neg (fun hh => hc ⟨hh.2.2.1, hh.2.2.2⟩),
              decide_eq_false (fun hh => hc hh.2 :
                ¬(bs.length = 32 ∧ 0 < beVal bs ∧ beVal bs < secpN))]
            rfl
        · rw [if_pos hl,
            decide_eq_false (fun hh => hl hh.1 :
              ¬(bs.length = 32 ∧ 0 < beVal bs ∧ beVal bs < secpN))]
  · rfl
